import Mathlib

/-!
# Verification of the `rundmcmc` Partition core

Shallow embedding of `rundmcmc/partition.py` (class `Partition`): a single
state of an MCMC walk over partitions of a graph's nodes, with root
construction, parent→child transition (`merge`), incremental part-index
update, eager/lazy updater caching, and the query operations.

Python values appearing as part labels / node attributes are modelled by
`PyVal` (integers, strings, `None`); Python runtime errors raised by the
code under consideration (`IndexError`, `KeyError`, `NameError`,
`AttributeError`) by `PyErr`.
Python `dict`s are modelled as insertion-ordered association lists with
distinct keys (`alookup` / `ainsert`); Python `list`s by Lean `List` with
Python's signed indexing (`pyIndex`).  Python's in-place mutation of the
*parent* partition during a child construction (the `defaultdict`
auto-vivification performed by `self.parent.parts[part]`) is made explicit:
`Partition.from_parent` returns the child *and* the possibly-updated parent.

The helper functions imported by `partition.py` from other modules of the
repository (`flows_from_changes`, `compute_edge_flows` from
`rundmcmc.updaters`, `max_edge_cuts` from `rundmcmc.proposals`) are not part
of the provided source; they are modelled from the spec and marked as such
in their doc comments.
-/

/-- A Python value as used by the partition core: an integer or string part
label / node identifier, or `None` (what `dict.get` returns for a missing
key). -/
inductive PyVal where
  | vint : Int → PyVal
  | vstr : String → PyVal
  | vnone : PyVal
deriving DecidableEq, Repr

/-- The Python runtime errors that the embedded code can raise:
`IndexError` (list index out of range), `KeyError` (missing dict key —
the spec's `ValidationError` / `UnknownUpdaterError` taxonomy),
`NameError` (reference to an unbound name), and `AttributeError`
(attribute access on `None`: what
`networkx.convert_node_labels_to_integers(None, ...)` raises when
construction re-enters the root path with no graph). -/
inductive PyErr where
  | indexError : PyErr
  | keyError : PyErr
  | nameError : PyErr
  | attributeError : PyErr
deriving DecidableEq, Repr

/-- Lookup in an insertion-ordered association list (Python `dict[k]` /
`k in d`): returns the value at the first matching key. -/
def alookup {K V : Type} [DecidableEq K] : List (K × V) → K → Option V
  | [], _ => none
  | (k, v) :: rest, key => if k = key then some v else alookup rest key

/-- Update-or-append in an insertion-ordered association list (Python
`d[k] = v`): replaces the value at an existing key in place, otherwise
appends the new binding at the end. -/
def ainsert {K V : Type} [DecidableEq K] : List (K × V) → K → V → List (K × V)
  | [], key, val => [(key, val)]
  | (k, v) :: rest, key, val =>
      if k = key then (k, val) :: rest else (k, v) :: ainsert rest key val

/-- Python sequence index normalisation for a sequence of length `n`:
`0 ≤ i < n` addresses `i`, `-n ≤ i < 0` addresses `n + i`, anything else
is an `IndexError`. -/
def pyIndex (n : Nat) (i : Int) : Option Nat :=
  if 0 ≤ i ∧ i < (n : Int) then some i.toNat
  else if -(n : Int) ≤ i ∧ i < 0 then some (i + (n : Int)).toNat
  else none

/-- Python `l[i] = a` on a list: in-place update at the normalised index,
`IndexError` when the index is out of range. -/
def pyListSet {α : Type} (l : List α) (i : Int) (a : α) : Except PyErr (List α) :=
  match pyIndex l.length i with
  | some j => .ok (l.set j a)
  | none => .error .indexError

/-- Python `l[i]` on a list of `PyVal`: read at the normalised index,
`IndexError` when out of range. -/
def pyListGet (l : List PyVal) (i : Int) : Except PyErr PyVal :=
  match pyIndex l.length i with
  | some j => .ok (l.getD j .vnone)
  | none => .error .indexError

/-- The caller-supplied graph, before node relabelling: an order-stable
list of original (opaque) node identifiers, edges as pairs of original
identifiers, and a per-node attribute dictionary (`attrs` is positional,
parallel to `nodes`). -/
structure RawGraph where
  nodes : List PyVal
  edges : List (PyVal × PyVal)
  attrs : List (List (String × PyVal))
deriving DecidableEq, Repr

/-- The graph after `networkx.convert_node_labels_to_integers`: a dense
`NodeId` space `0 .. n-1` (by position in the original node order), edges
as pairs of `NodeId`, and per-node attributes now including `"OLDID"`
(the original identifier, recorded by `label_attribute="OLDID"`). -/
structure Graph where
  n : Nat
  edges : List (Nat × Nat)
  attrs : List (List (String × PyVal))
deriving DecidableEq, Repr

/-- Position of an original node identifier in the node order (used to
relabel edge endpoints). -/
def idIndex (nodes : List PyVal) (x : PyVal) : Nat :=
  nodes.findIdx (fun y => decide (y = x))

/-- `networkx.convert_node_labels_to_integers(graph, label_attribute="OLDID")`:
relabel nodes to `0 .. n-1` in node order and record the original
identifier under the `"OLDID"` attribute. -/
def convertGraph (g : RawGraph) : Graph where
  n := g.nodes.length
  edges := g.edges.map (fun e => (idIndex g.nodes e.1, idIndex g.nodes e.2))
  attrs := (List.range g.nodes.length).map
      (fun i => ainsert (g.attrs.getD i []) "OLDID" (g.nodes.getD i .vnone))

/-- One entry of the Flow Record: the nodes entering and leaving one part. -/
structure PartFlow where
  inn : Finset Nat
  out : Finset Nat
deriving DecidableEq

/-- Classification of an edge touched by a flip (Edge Flow Record entry). -/
inductive EdgeClass where
  | newlyCut : EdgeClass
  | newlyUncut : EdgeClass
  | unchanged : EdgeClass
deriving DecidableEq, Repr

/-- Whether the two endpoints of `e` carry different labels in `assign`. -/
def crossesB (assign : List PyVal) (e : Nat × Nat) : Bool :=
  decide (assign.getD e.1 .vnone ≠ assign.getD e.2 .vnone)

/-- Modelled from the spec: `flows_from_changes(prior_assignment, flips)`
(imported from `rundmcmc.updaters`, whose source is not provided).  For
each flipped node, with `oldLabel` its prior label and `newLabel` its
flip target: a flip with `oldLabel = newLabel` is a no-op and contributes
nothing; otherwise the node is recorded as leaving `oldLabel` and entering
`newLabel`, grouped by affected part.  Flip keys are normalised with
Python indexing; a key the prior assignment cannot address is skipped
(the caller validates keys before this function runs).
`flowStep` processes one `(node, newLabel)` item of the flip dict. -/
def flowStep (assign : List PyVal) (acc : List (PyVal × PartFlow))
    (kv : Int × PyVal) : List (PyVal × PartFlow) :=
  match pyIndex assign.length kv.1 with
  | none => acc
  | some node =>
      let oldLab := assign.getD node .vnone
      if oldLab = kv.2 then acc
      else
        let fOut := (alookup acc oldLab).getD ⟨∅, ∅⟩
        let acc1 := ainsert acc oldLab ⟨fOut.inn, insert node fOut.out⟩
        let fIn := (alookup acc1 kv.2).getD ⟨∅, ∅⟩
        ainsert acc1 kv.2 ⟨insert node fIn.inn, fIn.out⟩

def flows_from_changes (assign : List PyVal) (flips : List (Int × PyVal)) :
    List (PyVal × PartFlow) :=
  flips.foldl (flowStep assign) []

/-- The set of (normalised) node ids a flip set touches. -/
def flippedNodes (n : Nat) (flips : List (Int × PyVal)) : Finset Nat :=
  flips.foldl
    (fun acc kv =>
      match pyIndex n kv.1 with
      | some j => insert j acc
      | none => acc) ∅

/-- Modelled from the spec: `compute_edge_flows` (imported from
`rundmcmc.updaters`, whose source is not provided).  For each edge with a
flipped endpoint, compare its crossing status under the parent's and the
child's assignment and classify it as newly cut, newly uncut, or
unchanged; edges with no flipped endpoint are skipped. -/
def compute_edge_flows (edges : List (Nat × Nat)) (parAssign childAssign : List PyVal)
    (flips : List (Int × PyVal)) : List ((Nat × Nat) × EdgeClass) :=
  (edges.filter
      (fun e => decide (e.1 ∈ flippedNodes parAssign.length flips ∨
                        e.2 ∈ flippedNodes parAssign.length flips))).map
    (fun e =>
      let before := crossesB parAssign e
      let after := crossesB childAssign e
      (e, if before = after then .unchanged
          else if after then .newlyCut else .newlyUncut))

/-- A `Partition` instance.  The Python object's `parent` back-reference is
not stored: aliasing-relevant mutation of the parent is made explicit by
`Partition.from_parent` returning the updated parent; the updater registry
(`self.updaters`, shared by reference along the whole chain) is passed
explicitly to the operations that read it, since it holds functions.
`partsEntries`/`partsDefault` model `self.parts`: an insertion-ordered
dict together with whether it is a `collections.defaultdict(set)` (the
root's is; a child's, after the pruning comprehension, is a plain dict). -/
structure Partition where
  graph : Graph
  assignment : List PyVal
  partsEntries : List (PyVal × Finset Nat)
  partsDefault : Bool
  cache : List (String × PyVal)
  maxEdgeCuts : Nat
  flows : Option (List (PyVal × PartFlow))
  edgeFlows : Option (List ((Nat × Nat) × EdgeClass))
deriving DecidableEq

/-- Modelled from the spec: `max_edge_cuts(partition)` (imported from
`rundmcmc.proposals`, whose source is not provided).  The spec fixes only
that it is a scalar derived from the Partition's edge classification,
recomputed fresh at every construction; we take the number of edges of the
graph currently crossing parts. -/
def max_edge_cuts (p : Partition) : Nat :=
  (p.graph.edges.filter (fun e => crossesB p.assignment e)).length

/-- Group nodes by label (`_first_time` lines 61–63: a
`defaultdict(set)` filled by `parts[part].add(node)` over
`enumerate(self.assignment)`). -/
def groupParts (assign : List PyVal) : List (PyVal × Finset Nat) :=
  assign.enum.foldl
    (fun acc nv => ainsert acc nv.2 (insert nv.1 ((alookup acc nv.2).getD ∅)))
    []

/-- `Partition._first_time(graph, assignment, updaters)` minus the
trailing `_update` / `max_edge_cuts` steps of `__init__` (see
`Partition.first_time` for the full root construction).  `assignAttr` is
the `assignment` parameter: in the source it is used as a node *attribute
name* (`networkx.get_node_attributes(self.graph, assignment)`); `none`
models passing `None`.  A falsy (empty) attribute name behaves like `None`
(`if assignment:`).  Nodes without the attribute get `None` as label
(`dict.get` of a missing key); no error is raised. -/
def Partition.first_time_raw (g : RawGraph) (assignAttr : Option String) : Partition :=
  let graph := convertGraph g
  let n := g.nodes.length
  let assign0 : List PyVal := List.replicate n (.vint 0)
  let assign :=
    match assignAttr with
    | none => assign0
    | some attrName =>
        if attrName = "" then assign0
        else (List.range n).map
          (fun i => (alookup (graph.attrs.getD i []) attrName).getD .vnone)
  { graph := graph
    assignment := assign
    partsEntries := groupParts assign
    partsDefault := true
    cache := []
    maxEdgeCuts := max_edge_cuts
      { graph := graph, assignment := assign, partsEntries := [],
        partsDefault := true, cache := [], maxEdgeCuts := 0,
        flows := none, edgeFlows := none }
    flows := none
    edgeFlows := none }

/-- The updater registry: string key → function of the partition
(`self.updaters`). -/
def Updaters : Type := List (String × (Partition → PyVal))

/-- `Partition._update`: reset the cache to an empty dict, then eagerly
compute and store every registered updater (`for key in self.updaters: if
key not in self._cache: self._cache[key] = self.updaters[key](self)`);
each updater sees the partition with the cache filled so far. -/
def updateStep (acc : Partition) (kv : String × (Partition → PyVal)) : Partition :=
  if (alookup acc.cache kv.1).isSome then acc
  else { acc with cache := ainsert acc.cache kv.1 (kv.2 acc) }

def Partition.update (updaters : Updaters) (p : Partition) : Partition :=
  updaters.foldl updateStep { p with cache := [] }

/-- Root construction: `Partition.__init__` with no parent —
`_first_time`, then `_update`, then `self.max_edge_cuts = max_edge_cuts(self)`. -/
def Partition.first_time (g : RawGraph) (assignAttr : Option String)
    (updaters : Updaters) : Partition :=
  let p0 := Partition.first_time_raw g assignAttr
  let p1 := Partition.update updaters p0
  { p1 with maxEdgeCuts := max_edge_cuts p1 }

/-- Apply a flip dict to an assignment list
(`for key, val in flips.items(): self.assignment[key] = val`), failing
with `IndexError` at the first key the list cannot address. -/
def applyFlips (assign : List PyVal) : List (Int × PyVal) → Except PyErr (List PyVal)
  | [] => .ok assign
  | (k, v) :: rest =>
      match pyListSet assign k v with
      | .ok a1 => applyFlips a1 rest
      | .error e => .error e

/-- Reading `parts[lab]` on the *parent's* parts dict inside
`_update_parts`: a present key returns its set; a missing key on a
`defaultdict(set)` auto-vivifies (inserts and returns a fresh empty set,
mutating the dict); a missing key on a plain dict raises `KeyError`. -/
def partsGetVivify (entries : List (PyVal × Finset Nat)) (isDefault : Bool)
    (lab : PyVal) : Except PyErr (Finset Nat × List (PyVal × Finset Nat)) :=
  match alookup entries lab with
  | some s => .ok (s, entries)
  | none =>
      if isDefault then .ok (∅, ainsert entries lab ∅)
      else .error .keyError

/-- The loop of `_update_parts`
(`for part, flow in self.flows.items(): self.parts[part] =
(self.parent.parts[part] | flow["in"]) - flow["out"]`), threading the
child's parts dict and the parent's (possibly vivified) parts dict. -/
def updatePartsLoop (isDefault : Bool) :
    List (PyVal × PartFlow) → List (PyVal × Finset Nat) → List (PyVal × Finset Nat) →
    Except PyErr (List (PyVal × Finset Nat) × List (PyVal × Finset Nat))
  | [], child, par => .ok (child, par)
  | (lab, f) :: rest, child, par =>
      match partsGetVivify par isDefault lab with
      | .error e => .error e
      | .ok (s, par1) =>
          updatePartsLoop isDefault rest (ainsert child lab ((s ∪ f.inn) \ f.out)) par1

/-- `Partition._from_parent(parent, flips)` followed by `_update_parts`.
Returns the child (before `_update` and the `max_edge_cuts` recomputation
of `__init__`) together with the parent as left by the construction: the
parent's parts dict may have gained auto-vivified empty entries (see
`partsGetVivify`); nothing else of the parent is touched. -/
def Partition.from_parent (parent : Partition) (flips : List (Int × PyVal)) :
    Except PyErr (Partition × Partition) :=
  match applyFlips parent.assignment flips with
  | .error e => .error e
  | .ok childAssign =>
      let flws := flows_from_changes parent.assignment flips
      let eflws := compute_edge_flows parent.graph.edges parent.assignment childAssign flips
      match updatePartsLoop parent.partsDefault flws parent.partsEntries parent.partsEntries with
      | .error e => .error e
      | .ok (childEntries, parentEntries1) =>
          .ok
            ({ graph := parent.graph
               assignment := childAssign
               partsEntries := childEntries.filter (fun kv => decide (kv.2 ≠ ∅))
               partsDefault := false
               cache := []
               maxEdgeCuts := parent.maxEdgeCuts
               flows := some flws
               edgeFlows := some eflws },
             { parent with partsEntries := parentEntries1 })

/-- `Partition.merge(flips)`, i.e. `Partition.__init__` with a parent.
`__init__` dispatches on `if parent:` — Python truthiness, which for a
`Partition` falls back to `__len__`, i.e. `len(self.parts)` — so a
*zero-part* parent (the root of an empty graph) is falsy: construction
then wrongly re-enters `_first_time(None, None, None)`, where
`networkx.convert_node_labels_to_integers(None, label_attribute="OLDID")`
raises `AttributeError` on `None` before anything else happens.  For a
truthy parent: `_from_parent` (including `_update_parts`), then
`_update`, then `self.max_edge_cuts = max_edge_cuts(self)`.  Returns the
child and the parent as left by the construction. -/
def Partition.merge (updaters : Updaters) (parent : Partition)
    (flips : List (Int × PyVal)) : Except PyErr (Partition × Partition) :=
  if parent.partsEntries.length = 0 then .error .attributeError
  else
    match Partition.from_parent parent flips with
    | .error e => .error e
    | .ok (child0, parent1) =>
        let child1 := Partition.update updaters child0
        .ok ({ child1 with maxEdgeCuts := max_edge_cuts child1 }, parent1)

/-- `Partition.crosses_parts(edge)`:
`self.assignment[edge[0]] != self.assignment[edge[1]]`. -/
def Partition.crosses_parts (p : Partition) (e : Nat × Nat) : Except PyErr Bool :=
  match pyListGet p.assignment (e.1 : Int) with
  | .error er => .error er
  | .ok a =>
      match pyListGet p.assignment (e.2 : Int) with
      | .error er => .error er
      | .ok b => .ok (decide (a ≠ b))

/-- `Partition.__getitem__(key)`: serve a cached value; otherwise look the
key up in the updater registry (`self.updaters[key]` — `KeyError` when
absent, the spec's `UnknownUpdaterError`), invoke it on the partition,
store and return the result. -/
def Partition.getItem (updaters : Updaters) (p : Partition) (key : String) :
    Except PyErr (PyVal × Partition) :=
  match alookup p.cache key with
  | some v => .ok (v, p)
  | none =>
      match alookup updaters key with
      | none => .error .keyError
      | some f =>
          let v := f p
          .ok (v, { p with cache := ainsert p.cache key v })

/-- `Partition.assignment_by_nodeid`.  The method body evaluates
`networkx.get_node_attributes(self.graph, "OLDID").get` and then
`range(len(graph.nodes))`, where `graph` is an unbound name (the module
defines no global `graph`); every call therefore raises `NameError`
before producing a mapping. -/
def Partition.assignment_by_nodeid (_p : Partition) :
    Except PyErr (List (PyVal × PyVal)) :=
  .error .nameError

/-- Projection of an `Except` onto its error, when any. -/
def exceptErr {α : Type} : Except PyErr α → Option PyErr
  | .error e => some e
  | .ok _ => none

/-- The Flip Set shape of the spec's data model: every key is a NodeId of
the dense `0 .. n-1` space. -/
def validFlips (n : Nat) (flips : List (Int × PyVal)) : Prop :=
  ∀ kv ∈ flips, 0 ≤ kv.1 ∧ kv.1 < (n : Int)

/-- The set of node ids (offset by `s`) that `l` assigns the label `lab`:
the fiber of the assignment over one part, computed from scratch. -/
def fiberFrom (lab : PyVal) : Nat → List PyVal → Finset Nat
  | _, [] => ∅
  | s, a :: t =>
      if a = lab then insert s (fiberFrom lab (s + 1) t)
      else fiberFrom lab (s + 1) t

/-- `fiberOpt assign lab` is the naive Parts-Index entry for `lab`:
absent when no node carries the label, otherwise the full fiber. -/
def fiberOpt (assign : List PyVal) (lab : PyVal) : Option (Finset Nat) :=
  if fiberFrom lab 0 assign = ∅ then none else some (fiberFrom lab 0 assign)

/-- The set of nodes that a flip list moves *into* the part `lab`
(relative to the prior assignment `A`). -/
def inFlow (A : List PyVal) (lab : PyVal) : List (Int × PyVal) → Finset Nat
  | [] => ∅
  | (k, v) :: rest =>
      match pyIndex A.length k with
      | none => inFlow A lab rest
      | some j =>
          if A.getD j .vnone = v then inFlow A lab rest
          else if v = lab then insert j (inFlow A lab rest)
          else inFlow A lab rest

/-- The set of nodes that a flip list moves *out of* the part `lab`. -/
def outFlow (A : List PyVal) (lab : PyVal) : List (Int × PyVal) → Finset Nat
  | [] => ∅
  | (k, v) :: rest =>
      match pyIndex A.length k with
      | none => outFlow A lab rest
      | some j =>
          if A.getD j .vnone = v then outFlow A lab rest
          else if A.getD j .vnone = lab then insert j (outFlow A lab rest)
          else outFlow A lab rest

deriving instance DecidableEq for Except

/-! ## Concrete instances used by the scenario theorems -/

/-- The spec's end-to-end scenario graph: 4 nodes `{0,1,2,3}`, edges
`{(0,1),(1,2),(2,3)}`, every node carrying the assignment attribute
`"district" = "A"`. -/
def g9 : RawGraph where
  nodes := [.vint 0, .vint 1, .vint 2, .vint 3]
  edges := [(.vint 0, .vint 1), (.vint 1, .vint 2), (.vint 2, .vint 3)]
  attrs := [[("district", .vstr "A")], [("district", .vstr "A")],
            [("district", .vstr "A")], [("district", .vstr "A")]]

def c9root : Partition := Partition.first_time g9 (some "district") []

def c9flips : List (Int × PyVal) := [((2 : Int), .vstr "B"), ((3 : Int), .vstr "B")]

def c9res : Except PyErr (Partition × Partition) := Partition.merge [] c9root c9flips

def c1flips : List (Int × PyVal) := [((2 : Int), .vstr "B")]

/-- A one-node graph (original node identifier `7`), no attributes. -/
def gSingle : RawGraph where
  nodes := [.vint 7]
  edges := []
  attrs := [[]]

def rootSingle : Partition := Partition.first_time gSingle none []

/-- A two-node path graph, no attributes: the root assigns both nodes to
part `0`. -/
def gPath2 : RawGraph where
  nodes := [.vint 0, .vint 1]
  edges := [(.vint 0, .vint 1)]
  attrs := [[], []]

def rootPath2 : Partition := Partition.first_time gPath2 none []

/-- The child obtained from `rootPath2` by flipping node `0` to the new
part `1` (a plain-dict parts index, being a non-root partition). -/
def c4child : Option Partition :=
  (Partition.merge [] rootPath2 [((0 : Int), .vint 1)]).toOption.map Prod.fst

def c3upd : Updaters := [("k", fun _ => .vint 7)]

def c3root : Partition := Partition.first_time gPath2 none c3upd

def c3pair : Partition × Partition :=
  (Partition.merge c3upd c3root []).toOption.getD (c3root, c3root)

/-- The graph with no nodes at all: its root partition has an empty
Parts Index, hence `len(partition) == 0` and the partition is *falsy*. -/
def gEmpty : RawGraph where
  nodes := []
  edges := []
  attrs := []

def rootEmpty : Partition := Partition.first_time gEmpty none []

/-- A complete, kernel-computable description of a `Finset Nat` of nodes:
its membership bitmap over the node range `0 .. n-1` together with its
cardinality (so that elements outside the range are accounted for too). -/
def finsetRepr (n : Nat) (s : Finset Nat) : List Bool × Nat :=
  ((List.range n).map (fun i => decide (i ∈ s)), s.card)

/-- Kernel-computable description of a Parts Index: each entry's label
with the `finsetRepr` of its member set, in dict order. -/
def partsRepr (n : Nat) (entries : List (PyVal × Finset Nat)) :
    List (PyVal × (List Bool × Nat)) :=
  entries.map (fun kv => (kv.1, finsetRepr n kv.2))

/-! ## Association-list lemmas -/

theorem alookup_ainsert_self {K V : Type} [DecidableEq K] (l : List (K × V))
    (k : K) (v : V) : alookup (ainsert l k v) k = some v := by
  induction l with
  | nil => simp [ainsert, alookup]
  | cons hd tl ih =>
      obtain ⟨k0, v0⟩ := hd
      by_cases h : k0 = k
      · subst h; simp [ainsert, alookup]
      · simp [ainsert, alookup, h, ih]

theorem alookup_ainsert_ne {K V : Type} [DecidableEq K] (l : List (K × V))
    (k k' : K) (v : V) (h : k' ≠ k) :
    alookup (ainsert l k v) k' = alookup l k' := by
  have hks : ¬ k = k' := fun e => h e.symm
  induction l with
  | nil => simp [ainsert, alookup, hks]
  | cons hd tl ih =>
      obtain ⟨k0, v0⟩ := hd
      by_cases h0 : k0 = k
      · subst h0
        simp [ainsert, alookup, hks]
      · simp [ainsert, alookup, h0, ih]

theorem mem_keys_ainsert {K V : Type} [DecidableEq K] (l : List (K × V))
    (k a : K) (v : V) :
    a ∈ (ainsert l k v).map Prod.fst ↔ a ∈ l.map Prod.fst ∨ a = k := by
  induction l with
  | nil => simp [ainsert]
  | cons hd tl ih =>
      obtain ⟨k0, v0⟩ := hd
      by_cases h : k0 = k
      · subst h; simp [ainsert]; tauto
      · simp [ainsert, h, ih]; tauto

theorem keys_ainsert_nodup {K V : Type} [DecidableEq K] (l : List (K × V))
    (k : K) (v : V) (h : (l.map Prod.fst).Nodup) :
    ((ainsert l k v).map Prod.fst).Nodup := by
  induction l with
  | nil => simp [ainsert]
  | cons hd tl ih =>
      obtain ⟨k0, v0⟩ := hd
      simp only [List.map_cons, List.nodup_cons] at h
      by_cases hk : k0 = k
      · subst hk; simpa [ainsert] using h
      · simp only [ainsert, hk, if_false, List.map_cons, List.nodup_cons]
        refine ⟨?_, ih h.2⟩
        rw [mem_keys_ainsert]
        rintro (hm | hm)
        · exact h.1 hm
        · exact hk hm

theorem alookup_eq_none_of_not_mem {K V : Type} [DecidableEq K]
    (l : List (K × V)) (k : K) (h : k ∉ l.map Prod.fst) :
    alookup l k = none := by
  induction l with
  | nil => rfl
  | cons hd tl ih =>
      obtain ⟨k0, v0⟩ := hd
      simp only [List.map_cons, List.mem_cons, not_or] at h
      have hne : ¬ k0 = k := fun e => h.1 e.symm
      simp [alookup, hne, ih h.2]

theorem keys_filter_subset {K V : Type} (p : K × V → Bool) (l : List (K × V))
    (a : K) (h : a ∈ (l.filter p).map Prod.fst) : a ∈ l.map Prod.fst := by
  induction l with
  | nil => simp at h
  | cons hd tl ih =>
      rw [List.filter_cons] at h
      by_cases hp : p hd
      · simp only [hp, if_true, List.map_cons, List.mem_cons] at h
        rcases h with h | h
        · simp [h]
        · simp [ih h]
      · simp only [hp] at h
        simp only [Bool.false_eq_true, if_false] at h
        simp [ih h]

theorem alookup_filter {K V : Type} [DecidableEq K] (p : V → Bool)
    (l : List (K × V)) (k : K) (h : (l.map Prod.fst).Nodup) :
    alookup (l.filter (fun kv => p kv.2)) k
      = (alookup l k).bind (fun v => if p v then some v else none) := by
  induction l with
  | nil => rfl
  | cons hd tl ih =>
      obtain ⟨k0, v0⟩ := hd
      simp only [List.map_cons, List.nodup_cons] at h
      rw [List.filter_cons]
      by_cases hk : k0 = k
      · subst hk
        by_cases hp : p v0
        · simp [alookup, hp]
        · simp only [hp, Bool.false_eq_true, if_false]
          rw [alookup_eq_none_of_not_mem _ k0
              (fun hm => h.1 (keys_filter_subset _ _ _ hm))]
          simp [alookup, hp]
      · by_cases hp : p v0
        · simp [alookup, hp, hk, ih h.2]
        · simp only [hp, Bool.false_eq_true, if_false]
          rw [ih h.2]
          simp [alookup, hk]

theorem alookup_isSome_ainsert {K V : Type} [DecidableEq K] (l : List (K × V))
    (k k' : K) (v : V) (h : (alookup l k).isSome) :
    (alookup (ainsert l k' v) k).isSome := by
  by_cases hk : k = k'
  · subst hk; simp [alookup_ainsert_self]
  · rwa [alookup_ainsert_ne _ _ _ _ hk]

/-! ## Python list update lemmas -/

theorem getD_set_self {α : Type} (l : List α) (i : Nat) (a d : α)
    (h : i < l.length) : (l.set i a).getD i d = a := by
  induction l generalizing i with
  | nil => simp at h
  | cons hd tl ih =>
      cases i with
      | zero => simp [List.set]
      | succ j =>
          simp only [List.set, List.getD_cons_succ]
          exact ih j (by simpa using h)

theorem getD_set_ne {α : Type} (l : List α) (i j : Nat) (a d : α)
    (h : i ≠ j) : (l.set i a).getD j d = l.getD j d := by
  induction l generalizing i j with
  | nil => simp [List.set]
  | cons hd tl ih =>
      cases i with
      | zero =>
          cases j with
          | zero => exact absurd rfl h
          | succ j' => simp [List.set]
      | succ i' =>
          cases j with
          | zero => simp [List.set]
          | succ j' =>
              simp only [List.set, List.getD_cons_succ]
              exact ih i' j' (fun e => h (by rw [e]))

theorem set_getD_self {α : Type} (l : List α) (i : Nat) (d : α) :
    l.set i (l.getD i d) = l := by
  induction l generalizing i with
  | nil => simp
  | cons hd tl ih =>
      cases i with
      | zero => simp [List.set]
      | succ j =>
          simp only [List.set, List.getD_cons_succ]
          rw [ih j]

/-! ## Naive re-grouping: fibers of an assignment -/

theorem mem_fiberFrom (lab : PyVal) (l : List PyVal) :
    ∀ (s i : Nat), i ∈ fiberFrom lab s l ↔
      s ≤ i ∧ i < s + l.length ∧ l.getD (i - s) .vnone = lab := by
  induction l with
  | nil =>
      intro s i
      simp only [fiberFrom, Finset.not_mem_empty, false_iff, List.length_nil]
      omega
  | cons a t ih =>
      intro s i
      by_cases ha : a = lab
      · simp only [fiberFrom, ha, if_true, Finset.mem_insert, ih (s + 1) i]
        constructor
        · rintro (rfl | ⟨h1, h2, h3⟩)
          · refine ⟨le_refl _, by simp, ?_⟩
            simp [Nat.sub_self, ha]
          · refine ⟨by omega, by simp; omega, ?_⟩
            have he : i - s = (i - (s + 1)) + 1 := by omega
            rw [he, List.getD_cons_succ] at *
            exact h3
        · rintro ⟨h1, h2, h3⟩
          rcases Nat.eq_or_lt_of_le h1 with rfl | hlt
          · exact Or.inl rfl
          · right
            refine ⟨by omega, by simp at h2 ⊢; omega, ?_⟩
            have he : i - s = (i - (s + 1)) + 1 := by omega
            rw [he, List.getD_cons_succ] at h3
            exact h3
      · simp only [fiberFrom, ha, if_false, ih (s + 1) i]
        constructor
        · rintro ⟨h1, h2, h3⟩
          refine ⟨by omega, by simp at h2 ⊢; omega, ?_⟩
          have he : i - s = (i - (s + 1)) + 1 := by omega
          rw [he, List.getD_cons_succ]
          exact h3
        · rintro ⟨h1, h2, h3⟩
          rcases Nat.eq_or_lt_of_le h1 with rfl | hlt
          · rw [Nat.sub_self, List.getD_cons_zero] at h3
            exact absurd h3 ha
          · refine ⟨by omega, by simp at h2 ⊢; omega, ?_⟩
            have he : i - s = (i - (s + 1)) + 1 := by omega
            rw [he, List.getD_cons_succ] at h3
            exact h3

theorem mem_fiberFrom_zero (lab : PyVal) (l : List PyVal) (i : Nat) :
    i ∈ fiberFrom lab 0 l ↔ i < l.length ∧ l.getD i .vnone = lab := by
  rw [mem_fiberFrom]
  constructor
  · rintro ⟨_, h2, h3⟩
    rw [Nat.sub_zero] at h3
    exact ⟨by omega, h3⟩
  · rintro ⟨h1, h2⟩
    exact ⟨Nat.zero_le _, by omega, by rwa [Nat.sub_zero]⟩

theorem groupParts_foldl (l : List PyVal) :
    ∀ (s : Nat) (acc : List (PyVal × Finset Nat)) (lab : PyVal),
      alookup ((List.enumFrom s l).foldl
          (fun acc nv => ainsert acc nv.2 (insert nv.1 ((alookup acc nv.2).getD ∅)))
          acc) lab
        = match alookup acc lab with
          | some t => some (t ∪ fiberFrom lab s l)
          | none =>
              if fiberFrom lab s l = ∅ then none else some (fiberFrom lab s l) := by
  induction l with
  | nil =>
      intro s acc lab
      simp only [List.enumFrom, List.foldl, fiberFrom]
      cases h : alookup acc lab with
      | none => simp
      | some t => simp
  | cons a t ih =>
      intro s acc lab
      rw [List.enumFrom_cons]
      simp only [List.foldl_cons]
      rw [ih (s + 1) (ainsert acc a (insert s ((alookup acc a).getD ∅))) lab]
      by_cases ha : a = lab
      · subst ha
        rw [alookup_ainsert_self]
        have hfib : fiberFrom a s (a :: t) = insert s (fiberFrom a (s + 1) t) := by
          simp [fiberFrom]
        rw [hfib]
        cases h : alookup acc a with
        | none =>
            simp only [h, Option.getD_none]
            rw [if_neg (Finset.insert_ne_empty _ _)]
            rw [Finset.insert_union, Finset.empty_union]
        | some t0 =>
            simp only [h, Option.getD_some]
            congr 1
            rw [Finset.insert_union, Finset.union_insert]
      · have hne : lab ≠ a := fun e => ha e.symm
        rw [alookup_ainsert_ne _ _ _ _ hne]
        have hfib : fiberFrom lab s (a :: t) = fiberFrom lab (s + 1) t := by
          simp [fiberFrom, ha]
        rw [hfib]

theorem alookup_groupParts (assign : List PyVal) (lab : PyVal) :
    alookup (groupParts assign) lab = fiberOpt assign lab := by
  unfold groupParts fiberOpt
  have he : assign.enum = List.enumFrom 0 assign := rfl
  rw [he]
  have h := groupParts_foldl assign 0 [] lab
  simpa [alookup] using h

theorem fiberOpt_getD (assign : List PyVal) (lab : PyVal) :
    (fiberOpt assign lab).getD ∅ = fiberFrom lab 0 assign := by
  unfold fiberOpt
  by_cases h : fiberFrom lab 0 assign = ∅
  · simp [h]
  · simp [h]

theorem keys_groupParts_nodup (assign : List PyVal) :
    ((groupParts assign).map Prod.fst).Nodup := by
  unfold groupParts
  generalize List.enum assign = l
  have h : ∀ (l : List (Nat × PyVal)) (acc : List (PyVal × Finset Nat)),
      (acc.map Prod.fst).Nodup →
      ((l.foldl
          (fun acc nv => ainsert acc nv.2 (insert nv.1 ((alookup acc nv.2).getD ∅)))
          acc).map Prod.fst).Nodup := by
    intro l
    induction l with
    | nil => intro acc hacc; exact hacc
    | cons hd tl ih =>
        intro acc hacc
        exact ih _ (keys_ainsert_nodup _ _ _ hacc)
  exact h l [] (by simp)

/-! ## Applying a flip dict to an assignment -/

theorem pyIndex_of_valid (n : Nat) (i : Int) (h0 : 0 ≤ i) (h1 : i < (n : Int)) :
    pyIndex n i = some i.toNat := by
  simp [pyIndex, h0, h1]

theorem applyFlips_valid (F : List (Int × PyVal)) :
    ∀ (A : List PyVal), validFlips A.length F → (F.map Prod.fst).Nodup →
      ∃ A2, applyFlips A F = .ok A2 ∧ A2.length = A.length ∧
        ∀ i : Nat, A2.getD i .vnone =
          match alookup F (i : Int) with
          | some v => v
          | none => A.getD i .vnone := by
  induction F with
  | nil =>
      intro A _ _
      exact ⟨A, rfl, rfl, fun i => by simp [alookup]⟩
  | cons hd rest ih =>
      intro A hval hnd
      obtain ⟨k, v⟩ := hd
      obtain ⟨hk0, hk1⟩ := hval (k, v) (List.mem_cons_self _ _)
      have hidx : pyIndex A.length k = some k.toNat := pyIndex_of_valid _ _ hk0 hk1
      have hklen : k.toNat < A.length := by omega
      have hset : pyListSet A k v = .ok (A.set k.toNat v) := by
        simp [pyListSet, hidx]
      have hlen1 : (A.set k.toNat v).length = A.length := List.length_set _ _ _
      have hval1 : validFlips (A.set k.toNat v).length rest := by
        rw [hlen1]; exact fun kv hm => hval kv (List.mem_cons_of_mem _ hm)
      simp only [List.map_cons, List.nodup_cons] at hnd
      obtain ⟨A2, happ, hlen2, hget⟩ := ih (A.set k.toNat v) hval1 hnd.2
      refine ⟨A2, ?_, by rw [hlen2, hlen1], ?_⟩
      · simp [applyFlips, hset, happ]
      · intro i
        by_cases hk : k = (i : Int)
        · have hnotmem : (i : Int) ∉ rest.map Prod.fst := by
            rw [← hk]; exact hnd.1
          have hrest : alookup rest (i : Int) = none :=
            alookup_eq_none_of_not_mem _ _ hnotmem
          have hki : k.toNat = i := by omega
          rw [hget i, hrest]
          simp only [alookup, if_pos hk]
          rw [hki]
          exact getD_set_self _ _ _ _ (by omega)
        · have hkne : k.toNat ≠ i := by omega
          rw [hget i]
          simp only [alookup, if_neg hk]
          rw [getD_set_ne _ _ _ _ _ hkne]

theorem alookup_none_of_ge_length (F : List (Int × PyVal)) (n : Nat)
    (hval : validFlips n F) (i : Nat) (h : n ≤ i) :
    alookup F (i : Int) = none := by
  apply alookup_eq_none_of_not_mem
  intro hm
  simp only [List.mem_map] at hm
  obtain ⟨kv, hkv, hfst⟩ := hm
  obtain ⟨h0, h1⟩ := hval kv hkv
  omega

/-- A flip that rewrites a node to its current label leaves the
assignment list unchanged. -/
theorem applyFlips_noop (F : List (Int × PyVal)) :
    ∀ (A : List PyVal),
      (∀ kv ∈ F, 0 ≤ kv.1 ∧ kv.1 < (A.length : Int) ∧
        A.getD kv.1.toNat .vnone = kv.2) →
      applyFlips A F = .ok A := by
  induction F with
  | nil => intro A _; rfl
  | cons hd rest ih =>
      intro A h
      obtain ⟨k, v⟩ := hd
      obtain ⟨hk0, hk1, hcur⟩ := h (k, v) (List.mem_cons_self _ _)
      dsimp only at hk0 hk1 hcur
      have hidx : pyIndex A.length k = some k.toNat := pyIndex_of_valid _ _ hk0 hk1
      have hset : pyListSet A k v = .ok A := by
        simp only [pyListSet, hidx]
        rw [← hcur, set_getD_self]
      simp only [applyFlips, hset]
      exact ih A (fun kv hm => h kv (List.mem_cons_of_mem _ hm))

/-- No-op flips contribute nothing to the flows. -/
theorem flows_from_changes_noop (F : List (Int × PyVal)) (A : List PyVal)
    (h : ∀ kv ∈ F, 0 ≤ kv.1 ∧ kv.1 < (A.length : Int) ∧
      A.getD kv.1.toNat .vnone = kv.2) :
    flows_from_changes A F = [] := by
  unfold flows_from_changes
  induction F with
  | nil => rfl
  | cons hd rest ih =>
      obtain ⟨k, v⟩ := hd
      obtain ⟨hk0, hk1, hcur⟩ := h (k, v) (List.mem_cons_self _ _)
      dsimp only at hk0 hk1 hcur
      have hidx : pyIndex A.length k = some k.toNat := pyIndex_of_valid _ _ hk0 hk1
      have hcur2 : A[k.toNat]?.getD PyVal.vnone = v := by
        rw [← List.getD_eq_getElem?_getD]; exact hcur
      have hstep : flowStep A [] (k, v) = [] := by
        simp [flowStep, hidx, hcur, hcur2]
      simp only [List.foldl_cons, hstep]
      exact ih (fun kv hm => h kv (List.mem_cons_of_mem _ hm))

/-! ## Characterisation of the Flow Record -/

theorem flows_foldl (A : List PyVal) (F : List (Int × PyVal)) :
    ∀ (acc : List (PyVal × PartFlow)) (lab : PyVal),
      alookup (F.foldl (flowStep A) acc) lab =
        match alookup acc lab with
        | some f => some ⟨f.inn ∪ inFlow A lab F, f.out ∪ outFlow A lab F⟩
        | none =>
            if inFlow A lab F = ∅ ∧ outFlow A lab F = ∅ then none
            else some ⟨inFlow A lab F, outFlow A lab F⟩ := by
  induction F with
  | nil =>
      intro acc lab
      simp only [List.foldl_nil, inFlow, outFlow]
      cases h : alookup acc lab with
      | none => simp
      | some f => simp
  | cons hd rest ih =>
      intro acc lab
      obtain ⟨k, v⟩ := hd
      simp only [List.foldl_cons]
      cases hidx : pyIndex A.length k with
      | none =>
          have hstep : flowStep A acc (k, v) = acc := by
            simp [flowStep, hidx]
          rw [hstep, ih acc lab]
          simp only [inFlow, outFlow, hidx]
      | some j =>
          by_cases hov : A.getD j .vnone = v
          · have hstep : flowStep A acc (k, v) = acc := by
              simp [flowStep, hidx, List.getD_eq_getElem?_getD] at *
              simp [hov]
            rw [hstep, ih acc lab]
            simp only [inFlow, outFlow, hidx, if_pos hov]
          · have hvo : v ≠ A.getD j .vnone := fun e => hov e.symm
            have hstep : flowStep A acc (k, v) =
                ainsert
                  (ainsert acc (A.getD j .vnone)
                    ⟨((alookup acc (A.getD j .vnone)).getD ⟨∅, ∅⟩).inn,
                     insert j ((alookup acc (A.getD j .vnone)).getD ⟨∅, ∅⟩).out⟩)
                  v
                  ⟨insert j ((alookup acc v).getD ⟨∅, ∅⟩).inn,
                   ((alookup acc v).getD ⟨∅, ∅⟩).out⟩ := by
              have hl : alookup (ainsert acc (A.getD j .vnone)
                  ⟨((alookup acc (A.getD j .vnone)).getD ⟨∅, ∅⟩).inn,
                   insert j ((alookup acc (A.getD j .vnone)).getD ⟨∅, ∅⟩).out⟩) v
                  = alookup acc v := alookup_ainsert_ne _ _ _ _ hvo
              simp only [flowStep, hidx, List.getD_eq_getElem?_getD] at *
              rw [if_neg hov]
              simp only [hl]
            rw [hstep, ih _ lab]
            by_cases hlv : lab = v
            · subst hlv
              rw [alookup_ainsert_self]
              have hin : inFlow A lab ((k, lab) :: rest) =
                  insert j (inFlow A lab rest) := by
                simp only [inFlow, hidx]
                rw [if_neg hov]
                simp
              have hout : outFlow A lab ((k, lab) :: rest) = outFlow A lab rest := by
                simp only [outFlow, hidx]
                rw [if_neg hov, if_neg hov]
              rw [hin, hout]
              cases h1 : alookup acc lab with
              | none =>
                  simp only [h1, Option.getD_none]
                  rw [if_neg (by
                    intro hcon
                    exact Finset.insert_ne_empty _ _ hcon.1)]
                  congr 1
                  rw [Finset.insert_union, Finset.empty_union, Finset.empty_union]
              | some f =>
                  simp only [h1, Option.getD_some]
                  congr 1
                  rw [Finset.insert_union, Finset.union_insert]
            · have hlv2 : lab ≠ v := hlv
              rw [alookup_ainsert_ne _ _ _ _ hlv2]
              by_cases hlo : lab = A.getD j .vnone
              · subst hlo
                rw [alookup_ainsert_self]
                have hvl : ¬ v = A.getD j .vnone := hvo
                have hin : inFlow A (A.getD j .vnone) ((k, v) :: rest) =
                    inFlow A (A.getD j .vnone) rest := by
                  simp only [inFlow, hidx]
                  rw [if_neg hov, if_neg hvl]
                have hout : outFlow A (A.getD j .vnone) ((k, v) :: rest) =
                    insert j (outFlow A (A.getD j .vnone) rest) := by
                  simp only [outFlow, hidx]
                  rw [if_neg hov]
                  simp
                rw [hin, hout]
                cases h1 : alookup acc (A.getD j .vnone) with
                | none =>
                    simp only [h1, Option.getD_none]
                    rw [if_neg (by
                      intro hcon
                      exact Finset.insert_ne_empty _ _ hcon.2)]
                    congr 1
                    rw [Finset.insert_union, Finset.empty_union, Finset.empty_union]
                | some f =>
                    simp only [h1, Option.getD_some]
                    congr 1
                    rw [Finset.insert_union, Finset.union_insert]
              · rw [alookup_ainsert_ne _ _ _ _ hlo]
                have hvl : ¬ v = lab := fun e => hlv e.symm
                have hol : ¬ A.getD j .vnone = lab := fun e => hlo e.symm
                have hin : inFlow A lab ((k, v) :: rest) = inFlow A lab rest := by
                  simp only [inFlow, hidx]
                  rw [if_neg hov, if_neg hvl]
                have hout : outFlow A lab ((k, v) :: rest) = outFlow A lab rest := by
                  simp only [outFlow, hidx]
                  rw [if_neg hov, if_neg hol]
                rw [hin, hout]

theorem mem_inFlow (A : List PyVal) (F : List (Int × PyVal))
    (hval : validFlips A.length F) (hnd : (F.map Prod.fst).Nodup)
    (lab : PyVal) (i : Nat) :
    i ∈ inFlow A lab F ↔
      i < A.length ∧ alookup F (i : Int) = some lab ∧
        A.getD i .vnone ≠ lab := by
  induction F with
  | nil => simp [inFlow, alookup]
  | cons hd rest ih =>
      obtain ⟨k, v⟩ := hd
      obtain ⟨hk0, hk1⟩ := hval (k, v) (List.mem_cons_self _ _)
      dsimp only at hk0 hk1
      have hidx : pyIndex A.length k = some k.toNat := pyIndex_of_valid _ _ hk0 hk1
      simp only [List.map_cons, List.nodup_cons] at hnd
      have hvalr : validFlips A.length rest :=
        fun kv hm => hval kv (List.mem_cons_of_mem _ hm)
      have ihr := ih hvalr hnd.2
      by_cases hki : k = (i : Int)
      · have hii : k.toNat = i := by omega
        have hrest : alookup rest (i : Int) = none :=
          alookup_eq_none_of_not_mem _ _ (by rw [← hki]; exact hnd.1)
        have hlook : alookup ((k, v) :: rest) (i : Int) = some v := by
          simp [alookup, hki]
        rw [hlook]
        by_cases hov : A.getD k.toNat .vnone = v
        · have hin : inFlow A lab ((k, v) :: rest) = inFlow A lab rest := by
            simp only [inFlow, hidx]
            rw [if_pos hov]
          rw [hin, ihr, hrest]
          simp only [Option.some.injEq]
          constructor
          · rintro ⟨_, h2, _⟩; exact absurd h2 (by simp)
          · rintro ⟨_, rfl, h3⟩
            rw [hii] at hov
            exact absurd hov h3
        · by_cases hvl : v = lab
          · subst hvl
            have hin : inFlow A v ((k, v) :: rest) =
                insert k.toNat (inFlow A v rest) := by
              simp only [inFlow, hidx]
              rw [if_neg hov]
              simp
            rw [hin]
            simp only [Finset.mem_insert, ihr, hrest]
            constructor
            · rintro (rfl | ⟨_, h2, _⟩)
              · refine ⟨by omega, by simp, ?_⟩
                rw [← hii]; exact hov
              · exact absurd h2 (by simp)
            · intro _; exact Or.inl hii.symm
          · have hin : inFlow A lab ((k, v) :: rest) = inFlow A lab rest := by
              simp only [inFlow, hidx]
              rw [if_neg hov, if_neg hvl]
            rw [hin, ihr, hrest]
            simp only [Option.some.injEq]
            constructor
            · rintro ⟨_, h2, _⟩; exact absurd h2 (by simp)
            · rintro ⟨_, he, _⟩; exact absurd he.symm (fun e => hvl e.symm)
      · have hlook : alookup ((k, v) :: rest) (i : Int) =
            alookup rest (i : Int) := by
          simp [alookup, hki]
        rw [hlook]
        have hii : k.toNat ≠ i := by omega
        by_cases hov : A.getD k.toNat .vnone = v
        · have hin : inFlow A lab ((k, v) :: rest) = inFlow A lab rest := by
            simp only [inFlow, hidx]
            rw [if_pos hov]
          rw [hin, ihr]
        · by_cases hvl : v = lab
          · subst hvl
            have hin : inFlow A v ((k, v) :: rest) =
                insert k.toNat (inFlow A v rest) := by
              simp only [inFlow, hidx]
              rw [if_neg hov]
              simp
            rw [hin]
            simp only [Finset.mem_insert, ihr]
            constructor
            · rintro (rfl | h)
              · exact absurd rfl hii
              · exact h
            · intro h; exact Or.inr h
          · have hin : inFlow A lab ((k, v) :: rest) = inFlow A lab rest := by
              simp only [inFlow, hidx]
              rw [if_neg hov, if_neg hvl]
            rw [hin, ihr]

theorem mem_outFlow (A : List PyVal) (F : List (Int × PyVal))
    (hval : validFlips A.length F) (hnd : (F.map Prod.fst).Nodup)
    (lab : PyVal) (i : Nat) :
    i ∈ outFlow A lab F ↔
      i < A.length ∧ A.getD i .vnone = lab ∧
        ∃ v, alookup F (i : Int) = some v ∧ v ≠ lab := by
  induction F with
  | nil => simp [outFlow, alookup]
  | cons hd rest ih =>
      obtain ⟨k, v⟩ := hd
      obtain ⟨hk0, hk1⟩ := hval (k, v) (List.mem_cons_self _ _)
      dsimp only at hk0 hk1
      have hidx : pyIndex A.length k = some k.toNat := pyIndex_of_valid _ _ hk0 hk1
      simp only [List.map_cons, List.nodup_cons] at hnd
      have hvalr : validFlips A.length rest :=
        fun kv hm => hval kv (List.mem_cons_of_mem _ hm)
      have ihr := ih hvalr hnd.2
      by_cases hki : k = (i : Int)
      · have hii : k.toNat = i := by omega
        have hrest : alookup rest (i : Int) = none :=
          alookup_eq_none_of_not_mem _ _ (by rw [← hki]; exact hnd.1)
        have hlook : alookup ((k, v) :: rest) (i : Int) = some v := by
          simp [alookup, hki]
        rw [hlook]
        by_cases hov : A.getD k.toNat .vnone = v
        · have hout : outFlow A lab ((k, v) :: rest) = outFlow A lab rest := by
            simp only [outFlow, hidx]
            rw [if_pos hov]
          rw [hout, ihr, hrest]
          constructor
          · rintro ⟨_, _, w, hw, _⟩; exact absurd hw (by simp)
          · rintro ⟨_, h2, w, hw, hwl⟩
            obtain rfl : v = w := by simpa using hw
            rw [hii] at hov
            rw [h2] at hov
            exact absurd hov.symm hwl
        · by_cases hal : A.getD k.toNat .vnone = lab
          · have hout : outFlow A lab ((k, v) :: rest) =
                insert k.toNat (outFlow A lab rest) := by
              simp only [outFlow, hidx]
              rw [if_neg hov, if_pos hal]
            rw [hout]
            simp only [Finset.mem_insert, ihr, hrest]
            constructor
            · rintro (rfl | ⟨_, _, w, hw, _⟩)
              · refine ⟨by omega, by rw [← hii]; exact hal, v, rfl, ?_⟩
                intro he; rw [he] at hov; exact hov hal
              · exact absurd hw (by simp)
            · intro _; exact Or.inl hii.symm
          · have hout : outFlow A lab ((k, v) :: rest) = outFlow A lab rest := by
              simp only [outFlow, hidx]
              rw [if_neg hov, if_neg hal]
            rw [hout, ihr, hrest]
            constructor
            · rintro ⟨_, _, w, hw, _⟩; exact absurd hw (by simp)
            · rintro ⟨_, h2, _, _, _⟩
              rw [← hii] at h2
              exact absurd h2 hal
      · have hlook : alookup ((k, v) :: rest) (i : Int) =
            alookup rest (i : Int) := by
          simp [alookup, hki]
        rw [hlook]
        have hii : k.toNat ≠ i := by omega
        by_cases hov : A.getD k.toNat .vnone = v
        · have hout : outFlow A lab ((k, v) :: rest) = outFlow A lab rest := by
            simp only [outFlow, hidx]
            rw [if_pos hov]
          rw [hout, ihr]
        · by_cases hal : A.getD k.toNat .vnone = lab
          · have hout : outFlow A lab ((k, v) :: rest) =
                insert k.toNat (outFlow A lab rest) := by
              simp only [outFlow, hidx]
              rw [if_neg hov, if_pos hal]
            rw [hout]
            simp only [Finset.mem_insert, ihr]
            constructor
            · rintro (rfl | h)
              · exact absurd rfl hii
              · exact h
            · intro h; exact Or.inr h
          · have hout : outFlow A lab ((k, v) :: rest) = outFlow A lab rest := by
              simp only [outFlow, hidx]
              rw [if_neg hov, if_neg hal]
            rw [hout, ihr]

theorem flowStep_keys_nodup (A : List PyVal) (acc : List (PyVal × PartFlow))
    (kv : Int × PyVal) (h : (acc.map Prod.fst).Nodup) :
    ((flowStep A acc kv).map Prod.fst).Nodup := by
  obtain ⟨k, v⟩ := kv
  unfold flowStep
  cases hidx : pyIndex A.length k with
  | none => exact h
  | some j =>
      dsimp only
      by_cases hov : A.getD j .vnone = v
      · rw [if_pos hov]; exact h
      · rw [if_neg hov]
        exact keys_ainsert_nodup _ _ _ (keys_ainsert_nodup _ _ _ h)

theorem flows_keys_nodup (A : List PyVal) (F : List (Int × PyVal)) :
    ∀ acc : List (PyVal × PartFlow), (acc.map Prod.fst).Nodup →
      ((F.foldl (flowStep A) acc).map Prod.fst).Nodup := by
  induction F with
  | nil => intro acc h; exact h
  | cons hd rest ih =>
      intro acc h
      simp only [List.foldl_cons]
      exact ih _ (flowStep_keys_nodup _ _ _ h)

/-! ## Characterisation of the parts-update loop -/

theorem updatePartsLoop_lookup (d : Bool) (PE : List (PyVal × Finset Nat)) :
    ∀ (FL : List (PyVal × PartFlow)) (child par : List (PyVal × Finset Nat)),
      (FL.map Prod.fst).Nodup →
      (∀ lab ∈ FL.map Prod.fst, alookup par lab = alookup PE lab) →
      ∀ CE PE1, updatePartsLoop d FL child par = .ok (CE, PE1) →
      ∀ lab, alookup CE lab =
        match alookup FL lab with
        | some f => some ((((alookup PE lab).getD ∅) ∪ f.inn) \ f.out)
        | none => alookup child lab := by
  intro FL
  induction FL with
  | nil =>
      intro child par _ _ CE PE1 hloop lab
      simp only [updatePartsLoop, Except.ok.injEq, Prod.mk.injEq] at hloop
      rw [← hloop.1]
      rfl
  | cons hd rest ih =>
      intro child par hnd hagree CE PE1 hloop lab
      obtain ⟨lab0, f0⟩ := hd
      simp only [List.map_cons, List.nodup_cons] at hnd
      have hagree0 : alookup par lab0 = alookup PE lab0 :=
        hagree lab0 (by simp)
      simp only [updatePartsLoop] at hloop
      cases hviv : partsGetVivify par d lab0 with
      | error e => rw [hviv] at hloop; exact absurd hloop (by simp)
      | ok sp =>
          obtain ⟨s, par1⟩ := sp
          rw [hviv] at hloop
          simp only at hloop
          have hs : s = (alookup PE lab0).getD ∅ ∧
              (∀ lab ∈ rest.map Prod.fst, alookup par1 lab = alookup PE lab) := by
            unfold partsGetVivify at hviv
            cases halp : alookup par lab0 with
            | some s0 =>
                rw [halp] at hviv
                simp only [Except.ok.injEq, Prod.mk.injEq] at hviv
                constructor
                · rw [← hviv.1, ← hagree0, halp]; rfl
                · intro lab hm
                  rw [← hviv.2]
                  exact hagree lab (List.mem_cons_of_mem _ hm)
            | none =>
                rw [halp] at hviv
                cases d with
                | false => exact absurd hviv (by simp)
                | true =>
                    simp only [if_true, Except.ok.injEq, Prod.mk.injEq] at hviv
                    constructor
                    · rw [← hviv.1, ← hagree0, halp]; rfl
                    · intro lab hm
                      rw [← hviv.2]
                      have hne : lab ≠ lab0 := by
                        intro he; exact hnd.1 (he ▸ hm)
                      rw [alookup_ainsert_ne _ _ _ _ hne]
                      exact hagree lab (List.mem_cons_of_mem _ hm)
          have ihr := ih (ainsert child lab0 ((s ∪ f0.inn) \ f0.out)) par1
            hnd.2 hs.2 CE PE1 hloop
          by_cases hl : lab = lab0
          · subst hl
            have hrest : alookup rest lab = none :=
              alookup_eq_none_of_not_mem _ _ hnd.1
            have hlk : alookup ((lab, f0) :: rest) lab = some f0 := by
              simp [alookup]
            rw [ihr lab, hrest, hlk]
            dsimp only
            rw [alookup_ainsert_self, hs.1]
          · have hne : ¬ lab0 = lab := fun e => hl e.symm
            have hlk : alookup ((lab0, f0) :: rest) lab = alookup rest lab := by
              simp [alookup, hne]
            rw [ihr lab, hlk]
            cases hr : alookup rest lab with
            | some f => rfl
            | none => exact alookup_ainsert_ne _ _ _ _ hl

theorem updatePartsLoop_keys_nodup (d : Bool) :
    ∀ (FL : List (PyVal × PartFlow)) (child par : List (PyVal × Finset Nat))
      (CE PE1 : List (PyVal × Finset Nat)),
      updatePartsLoop d FL child par = .ok (CE, PE1) →
      (child.map Prod.fst).Nodup → (CE.map Prod.fst).Nodup := by
  intro FL
  induction FL with
  | nil =>
      intro child par CE PE1 hloop h
      simp only [updatePartsLoop, Except.ok.injEq, Prod.mk.injEq] at hloop
      rw [← hloop.1]
      exact h
  | cons hd rest ih =>
      intro child par CE PE1 hloop h
      obtain ⟨lab0, f0⟩ := hd
      simp only [updatePartsLoop] at hloop
      cases hviv : partsGetVivify par d lab0 with
      | error e => rw [hviv] at hloop; exact absurd hloop (by simp)
      | ok sp =>
          obtain ⟨s, par1⟩ := sp
          rw [hviv] at hloop
          simp only at hloop
          exact ih _ _ _ _ hloop (keys_ainsert_nodup _ _ _ h)

theorem alookup_filter_nonempty {K : Type} [DecidableEq K]
    (l : List (K × Finset Nat)) (k : K) (h : (l.map Prod.fst).Nodup) :
    alookup (l.filter (fun kv => decide (kv.2 ≠ ∅))) k
      = (alookup l k).bind (fun v => if v = ∅ then none else some v) := by
  have hgen := alookup_filter (fun v : Finset Nat => decide (v ≠ ∅)) l k h
  rw [hgen]
  cases alookup l k with
  | none => rfl
  | some v => by_cases hv : v = ∅ <;> simp [hv]

/-! ## The incremental update agrees with naive re-grouping -/

theorem fiber_eq_of_no_flow (A A2 : List PyVal) (F : List (Int × PyVal))
    (hval : validFlips A.length F) (hfnd : (F.map Prod.fst).Nodup) (lab : PyVal)
    (hlen : A2.length = A.length)
    (hget : ∀ i : Nat, A2.getD i .vnone =
      match alookup F (i : Int) with
      | some v => v
      | none => A.getD i .vnone)
    (hin : inFlow A lab F = ∅) (hout : outFlow A lab F = ∅) :
    fiberFrom lab 0 A2 = fiberFrom lab 0 A := by
  ext i
  rw [mem_fiberFrom_zero, mem_fiberFrom_zero, hlen]
  by_cases hi : i < A.length
  · simp only [hi, true_and]
    have hg := hget i
    cases halc : alookup F (i : Int) with
    | none =>
        rw [halc] at hg
        simp only at hg
        rw [hg]
    | some v =>
        rw [halc] at hg
        simp only at hg
        rw [hg]
        constructor
        · intro hv
          by_contra hA
          have hmem : i ∈ inFlow A lab F :=
            (mem_inFlow A F hval hfnd lab i).mpr
              ⟨hi, by rw [halc, hv], hA⟩
          rw [hin] at hmem
          exact absurd hmem (Finset.not_mem_empty i)
        · intro hA
          by_contra hv
          have hmem : i ∈ outFlow A lab F :=
            (mem_outFlow A F hval hfnd lab i).mpr ⟨hi, hA, v, halc, hv⟩
          rw [hout] at hmem
          exact absurd hmem (Finset.not_mem_empty i)
  · simp [hi]

theorem fiber_eq_update (A A2 : List PyVal) (F : List (Int × PyVal))
    (hval : validFlips A.length F) (hfnd : (F.map Prod.fst).Nodup) (lab : PyVal)
    (hlen : A2.length = A.length)
    (hget : ∀ i : Nat, A2.getD i .vnone =
      match alookup F (i : Int) with
      | some v => v
      | none => A.getD i .vnone) :
    (fiberFrom lab 0 A ∪ inFlow A lab F) \ outFlow A lab F = fiberFrom lab 0 A2 := by
  ext i
  rw [Finset.mem_sdiff, Finset.mem_union, mem_fiberFrom_zero, mem_fiberFrom_zero,
      hlen, mem_inFlow A F hval hfnd, mem_outFlow A F hval hfnd]
  by_cases hi : i < A.length
  · simp only [hi, true_and]
    have hg := hget i
    cases halc : alookup F (i : Int) with
    | none =>
        rw [halc] at hg
        simp only at hg
        rw [hg]
        simp [halc]
    | some v =>
        rw [halc] at hg
        simp only at hg
        rw [hg]
        simp only [Option.some.injEq]
        by_cases hv : v = lab
        · subst hv
          by_cases hA : A.getD i .vnone = v <;> simp [hA] <;> tauto
        · by_cases hA : A.getD i .vnone = lab <;> simp [hA, hv]
  · simp [hi]

theorem from_parent_eq (p : Partition) (F : List (Int × PyVal))
    (A2 : List PyVal) (CE PE1 : List (PyVal × Finset Nat))
    (happ : applyFlips p.assignment F = .ok A2)
    (hloop : updatePartsLoop p.partsDefault (flows_from_changes p.assignment F)
      p.partsEntries p.partsEntries = .ok (CE, PE1)) :
    Partition.from_parent p F = .ok
      ({ graph := p.graph
         assignment := A2
         partsEntries := CE.filter (fun kv => decide (kv.2 ≠ ∅))
         partsDefault := false
         cache := []
         maxEdgeCuts := p.maxEdgeCuts
         flows := some (flows_from_changes p.assignment F)
         edgeFlows := some (compute_edge_flows p.graph.edges p.assignment A2 F) },
       { p with partsEntries := PE1 }) := by
  unfold Partition.from_parent
  rw [happ]
  dsimp only
  rw [hloop]

/-- **C1.**  Flow correctness of the incremental Parts-Index update: for any
parent Partition whose Parts Index agrees with the naive grouping of its
Assignment, and any Flip Set (distinct NodeId keys of the dense `0 .. n-1`
space), whenever the transition's incremental update produces a child, the
child's Assignment is exactly the fully-applied post-flip Assignment, and
the child's Parts Index is, part by part and as sets of NodeId, the index
obtained by naively re-grouping that post-flip Assignment from scratch
(untouched parts kept, touched parts replaced by
`(parent ∪ entering) − leaving`, emptied parts dropped). -/
theorem from_parent_parts_eq_naive_regroup
    (p : Partition) (F : List (Int × PyVal))
    (hparts : ∀ lab, alookup p.partsEntries lab = alookup (groupParts p.assignment) lab)
    (hpnd : (p.partsEntries.map Prod.fst).Nodup)
    (hval : validFlips p.assignment.length F)
    (hfnd : (F.map Prod.fst).Nodup)
    (hok : (Partition.from_parent p F).isOk = true) :
    ((Partition.from_parent p F).toOption.map (fun cp => cp.1.assignment)
        = (applyFlips p.assignment F).toOption)
    ∧ ∀ lab,
        (Partition.from_parent p F).toOption.map
            (fun cp => alookup cp.1.partsEntries lab)
          = (applyFlips p.assignment F).toOption.map
              (fun A2 => alookup (groupParts A2) lab) := by
  obtain ⟨A2, happ, hlen, hget⟩ := applyFlips_valid F p.assignment hval hfnd
  cases hloop : updatePartsLoop p.partsDefault (flows_from_changes p.assignment F)
      p.partsEntries p.partsEntries with
  | error e =>
      exfalso
      have hfp : Partition.from_parent p F = .error e := by
        unfold Partition.from_parent
        rw [happ]
        dsimp only
        rw [hloop]
      rw [hfp] at hok
      simp [Except.isOk, Except.toBool] at hok
  | ok cpe =>
      obtain ⟨CE, PE1⟩ := cpe
      have hfp := from_parent_eq p F A2 CE PE1 happ hloop
      have hCEnd : (CE.map Prod.fst).Nodup :=
        updatePartsLoop_keys_nodup p.partsDefault _ _ _ _ _ hloop hpnd
      have hkey : ∀ lab, alookup (CE.filter (fun kv => decide (kv.2 ≠ ∅))) lab
          = fiberOpt A2 lab := by
        intro lab
        have hCE := updatePartsLoop_lookup p.partsDefault p.partsEntries
          (flows_from_changes p.assignment F) p.partsEntries p.partsEntries
          (flows_keys_nodup p.assignment F [] (by simp))
          (fun lab _ => rfl) CE PE1 hloop lab
        have hFL : alookup (flows_from_changes p.assignment F) lab =
            if inFlow p.assignment lab F = ∅ ∧ outFlow p.assignment lab F = ∅
            then none
            else some ⟨inFlow p.assignment lab F, outFlow p.assignment lab F⟩ := by
          have h := flows_foldl p.assignment F [] lab
          simpa [alookup, flows_from_changes] using h
        rw [alookup_filter_nonempty CE lab hCEnd]
        by_cases hcase : inFlow p.assignment lab F = ∅ ∧ outFlow p.assignment lab F = ∅
        · have hCE2 : alookup CE lab = alookup p.partsEntries lab := by
            rw [hCE, hFL, if_pos hcase]
          rw [hCE2, hparts lab, alookup_groupParts]
          have hfib : fiberFrom lab 0 A2 = fiberFrom lab 0 p.assignment :=
            fiber_eq_of_no_flow p.assignment A2 F hval hfnd lab hlen hget
              hcase.1 hcase.2
          unfold fiberOpt
          rw [hfib]
          by_cases hememp : fiberFrom lab 0 p.assignment = ∅ <;> simp [hememp]
        · have hCE3 : alookup CE lab =
              some ((fiberFrom lab 0 p.assignment ∪ inFlow p.assignment lab F)
                \ outFlow p.assignment lab F) := by
            rw [hCE, hFL, if_neg hcase]
            dsimp only
            rw [hparts lab, alookup_groupParts, fiberOpt_getD]
          rw [hCE3]
          have hfib := fiber_eq_update p.assignment A2 F hval hfnd lab hlen hget
          rw [hfib]
          unfold fiberOpt
          by_cases hememp : fiberFrom lab 0 A2 = ∅ <;> simp [hememp]
      constructor
      · rw [hfp, happ]
        rfl
      · intro lab
        rw [hfp, happ]
        dsimp only [Except.toOption, Option.map]
        rw [hkey lab, alookup_groupParts]

/-! ## Claim theorems -/

/-- **C9.**  End-to-end scenario: on the 4-node path graph with all nodes
initially in part `"A"`, `crosses_parts` is false for every edge at the
root; the flip `{2: "B", 3: "B"}` yields a child whose Parts Index is
exactly `{"A": {0,1}, "B": {2,3}}` (given as membership bitmaps over the
node range with cardinalities), on which `crosses_parts((1,2))` is true
and `crosses_parts((0,1))`, `crosses_parts((2,3))` are false. -/
theorem c9_end_to_end_scenario :
    (Partition.crosses_parts c9root (0, 1) = .ok false
      ∧ Partition.crosses_parts c9root (1, 2) = .ok false
      ∧ Partition.crosses_parts c9root (2, 3) = .ok false)
    ∧ c9res.toOption.map (fun cp => partsRepr 4 cp.1.partsEntries)
        = some [(.vstr "A", ([true, true, false, false], 2)),
                (.vstr "B", ([false, false, true, true], 2))]
    ∧ c9res.toOption.map (fun cp => Partition.crosses_parts cp.1 (1, 2))
        = some (.ok true)
    ∧ c9res.toOption.map (fun cp => Partition.crosses_parts cp.1 (0, 1))
        = some (.ok false)
    ∧ c9res.toOption.map (fun cp => Partition.crosses_parts cp.1 (2, 3))
        = some (.ok false) :=
  ⟨⟨rfl, rfl, rfl⟩, rfl, rfl, rfl, rfl⟩

/-- **C2** (code bug).  A reachable Partition violates the "no empty part"
invariant: starting from the one-node root (parts `{0: {0}}`) and merging
the flip `{0: 1}`, the root partition — still reachable as the child's
parent — is left with Parts Index `{0: {0}, 1: ∅}`: the `defaultdict`
read `self.parent.parts[part]` auto-vivified an empty entry for the new
part `1` inside the parent's index. -/
theorem c2_reachable_parent_has_empty_part :
    partsRepr 1 rootSingle.partsEntries = [(.vint 0, ([true], 1))]
    ∧ (Partition.merge [] rootSingle [((0 : Int), .vint 1)]).toOption.map
        (fun cp => partsRepr 1 cp.2.partsEntries)
        = some [(.vint 0, ([true], 1)), (.vint 1, ([false], 0))]
    ∧ (Partition.merge [] rootSingle [((0 : Int), .vint 1)]).toOption.map
        (fun cp => (alookup cp.2.partsEntries (.vint 1)).map (finsetRepr 1))
        = some (some ([false], 0)) :=
  ⟨rfl, rfl, rfl⟩

/-- **C7** (code bug).  Transition mutates the parent: merging the flip
`{0: 1}` on the two-node root changes the parent's Parts Index from
`{0: {0,1}}` to `{0: {0,1}, 1: ∅}` (an auto-vivified empty entry for the
new part), so the parent is *not* left untouched. -/
theorem c7_transition_mutates_parent_parts :
    partsRepr 2 rootPath2.partsEntries = [(.vint 0, ([true, true], 2))]
    ∧ (Partition.merge [] rootPath2 [((0 : Int), .vint 1)]).toOption.map
        (fun cp => partsRepr 2 cp.2.partsEntries)
        = some [(.vint 0, ([true, true], 2)), (.vint 1, ([false, false], 0))] :=
  ⟨rfl, rfl⟩

/-- **C4** (code bug).  Divergence of transition validation from the
claim: (a) a Flip Set with only valid NodeIds (`{1: 2}`, node `1` of the
two-node graph) *fails* with `KeyError` when the parent is itself a child
(its parts index is a plain dict, so the new part label `2` cannot be
auto-vivified — contradicting the source's own comment that parts must
stay a defaultdict so that new parts can appear); (b) the out-of-range
NodeId `5` fails with `IndexError` (the spec's ValidationError); (c) the
NodeId `-1`, also outside the valid range, does *not* fail: Python's
negative indexing silently aliases node `1`. -/
theorem c4_transition_validation_divergence :
    c4child.map
        (fun c => exceptErr (Partition.merge [] c [((1 : Int), .vint 2)]))
      = some (some .keyError)
    ∧ exceptErr (Partition.merge [] rootPath2 [((5 : Int), .vint 1)])
        = some .indexError
    ∧ (Partition.merge [] rootPath2 [((-1 : Int), .vint 1)]).toOption.map
        (fun cp => cp.1.assignment)
        = some [.vint 0, .vint 1] :=
  ⟨rfl, rfl, rfl⟩

/-- **C10** (code bug).  `assignment_by_nodeid` never returns a mapping:
its body references the unbound name `graph` (instead of `self.graph`),
so every call raises `NameError`. -/
theorem c10_assignment_by_nodeid_raises_nameerror (p : Partition) :
    Partition.assignment_by_nodeid p = .error .nameError := rfl

/-- **C5** (counterexample).  Root construction with an initial assignment
attribute that covers no node does **not** fail: on a one-node graph with
an empty attribute dict, requesting assignment attribute `"district"`
produces a Partition whose Assignment is `[None]` (a partial assignment
represented by the `None` label), and whose Parts Index has a `None`
part. -/
theorem c5_missing_label_produces_partition :
    (Partition.first_time gSingle (some "district") []).assignment = [.vnone]
    ∧ partsRepr 1 (Partition.first_time gSingle (some "district") []).partsEntries
        = [(.vnone, ([true], 1))] :=
  ⟨rfl, rfl⟩

/-- **C3** (counterexample).  The child's Cache does *not* start empty and
is *not* filled lazily on first get: immediately after the transition
(no `__getitem__` ever called), the child produced by merging the empty
Flip Set on a root with one registered updater already caches that
updater's value — `_update` eagerly evaluates every registered updater at
construction. -/
theorem c3_child_cache_eager_counterexample :
    (Partition.merge c3upd c3root []).toOption.map (fun cp => cp.1.cache)
      = some [("k", PyVal.vint 7)] := rfl

/-- **C6.**  A key that is neither in the Partition's Cache nor in the
Updater Registry makes `__getitem__` fail with `KeyError` (the spec's
UnknownUpdaterError). -/
theorem c6_unknown_updater_error (upd : Updaters) (p : Partition) (key : String)
    (hcache : alookup p.cache key = none) (hupd : alookup upd key = none) :
    Partition.getItem upd p key = .error .keyError := by
  unfold Partition.getItem
  rw [hcache, hupd]

/-- Witness for `c6_unknown_updater_error`: querying `"population"` on a
root built with an empty Updater Registry fails with `KeyError`. -/
theorem c6_unknown_updater_error_witness :
    Partition.getItem [] rootSingle "population" = .error .keyError :=
  c6_unknown_updater_error [] rootSingle "population" rfl rfl

/-! ## `_update` touches only the cache -/

theorem updateFold_eq_cache (l : Updaters) :
    ∀ acc : Partition,
      l.foldl updateStep acc
        = { acc with cache := (l.foldl updateStep acc).cache } := by
  induction l with
  | nil => intro acc; rfl
  | cons hd tl ih =>
      intro acc
      simp only [List.foldl_cons]
      by_cases h : (alookup acc.cache hd.1).isSome
      · have hstep : updateStep acc hd = acc := by simp [updateStep, h]
        rw [hstep]
        exact ih acc
      · have hstep : updateStep acc hd
            = { acc with cache := ainsert acc.cache hd.1 (hd.2 acc) } := by
          simp [updateStep, h]
        rw [hstep]
        exact ih _

theorem update_assignment (upd : Updaters) (q : Partition) :
    (Partition.update upd q).assignment = q.assignment := by
  unfold Partition.update
  rw [updateFold_eq_cache]

theorem update_partsEntries (upd : Updaters) (q : Partition) :
    (Partition.update upd q).partsEntries = q.partsEntries := by
  unfold Partition.update
  rw [updateFold_eq_cache]

theorem update_graph (upd : Updaters) (q : Partition) :
    (Partition.update upd q).graph = q.graph := by
  unfold Partition.update
  rw [updateFold_eq_cache]

theorem update_max_edge_cuts (upd : Updaters) (q : Partition) :
    max_edge_cuts (Partition.update upd q) = max_edge_cuts q := by
  unfold max_edge_cuts
  rw [update_graph, update_assignment]

/-- **C8** (counterexample).  The no-op-flip claim fails on the zero-part
Partition: the root of the empty graph has no nodes, so the empty Flip
Set maps each of its nodes to its current label, yet `merge` produces no
child at all — the zero-part parent is falsy, `__init__` re-enters root
construction with `graph=None`, and networkx raises `AttributeError`. -/
theorem c8_noop_flip_counterexample :
    rootEmpty.assignment = [] ∧ rootEmpty.partsEntries = []
    ∧ Partition.merge [] rootEmpty [] = .error .attributeError :=
  ⟨rfl, rfl, rfl⟩

/-- **C8** (amended).  No-op flip stability for every Partition with at
least one part (a zero-part Partition is falsy, and transition on it
raises instead of producing a child) whose stored data satisfies the
documented well-formedness (no empty Parts-Index entries, stored
max-edge-cuts equal to the recomputed value): a Flip Set mapping each of
its nodes to that node's current label yields a child whose Assignment,
Parts Index and max-edge-cuts are identical to the parent's, and leaves
the parent's Parts Index untouched (such flips contribute nothing to the
flows). -/
theorem c8_noop_flip_stability (upd : Updaters) (p : Partition)
    (F : List (Int × PyVal))
    (hpar : p.partsEntries ≠ [])
    (hnoop : ∀ kv ∈ F, 0 ≤ kv.1 ∧ kv.1 < (p.assignment.length : Int) ∧
      p.assignment.getD kv.1.toNat .vnone = kv.2)
    (hne : ∀ e ∈ p.partsEntries, e.2 ≠ ∅)
    (hmec : p.maxEdgeCuts = max_edge_cuts p) :
    (Partition.merge upd p F).toOption.map
        (fun cp => (cp.1.assignment, cp.1.partsEntries, cp.1.maxEdgeCuts,
                    cp.2.partsEntries))
      = some (p.assignment, p.partsEntries, p.maxEdgeCuts, p.partsEntries) := by
  have happ : applyFlips p.assignment F = .ok p.assignment :=
    applyFlips_noop F p.assignment hnoop
  have hflows : flows_from_changes p.assignment F = [] :=
    flows_from_changes_noop F p.assignment hnoop
  have hloop : updatePartsLoop p.partsDefault (flows_from_changes p.assignment F)
      p.partsEntries p.partsEntries = .ok (p.partsEntries, p.partsEntries) := by
    rw [hflows]; rfl
  have hfp := from_parent_eq p F p.assignment p.partsEntries p.partsEntries happ hloop
  have hfilter : p.partsEntries.filter (fun kv => decide (kv.2 ≠ ∅))
      = p.partsEntries :=
    List.filter_eq_self.mpr (fun a ha => by simpa using hne a ha)
  rw [hfilter] at hfp
  have hlen : ¬ p.partsEntries.length = 0 := by
    intro h0
    exact hpar (List.length_eq_zero.mp h0)
  unfold Partition.merge
  rw [if_neg hlen, hfp]
  dsimp only [Except.toOption, Option.map]
  rw [update_assignment, update_partsEntries, update_max_edge_cuts]
  show some (p.assignment, p.partsEntries, max_edge_cuts p, p.partsEntries) = _
  rw [← hmec]

/-- Witness for `c8_noop_flip_stability`: flipping both nodes of the
two-node root to their current part `0` reproduces the parent exactly. -/
theorem c8_noop_flip_stability_witness :
    (Partition.merge [] rootPath2
        [((0 : Int), .vint 0), ((1 : Int), .vint 0)]).toOption.map
        (fun cp => (cp.1.assignment, cp.1.partsEntries, cp.1.maxEdgeCuts,
                    cp.2.partsEntries))
      = some (rootPath2.assignment, rootPath2.partsEntries,
              rootPath2.maxEdgeCuts, rootPath2.partsEntries) :=
  c8_noop_flip_stability [] rootPath2 [((0 : Int), .vint 0), ((1 : Int), .vint 0)]
    (by decide) (by decide) (by decide) rfl

/-! ## Cache rebuild lemmas for the amended C3 -/

theorem from_parent_cache_irrelevant (p : Partition)
    (c0 : List (String × PyVal)) (F : List (Int × PyVal)) :
    Partition.from_parent { p with cache := c0 } F
      = match Partition.from_parent p F with
        | .error e => .error e
        | .ok cp => .ok (cp.1, { cp.2 with cache := c0 }) := by
  unfold Partition.from_parent
  dsimp only
  cases happ : applyFlips p.assignment F with
  | error e => rfl
  | ok A2 =>
      dsimp only
      cases hloop : updatePartsLoop p.partsDefault
          (flows_from_changes p.assignment F) p.partsEntries p.partsEntries with
      | error e => rfl
      | ok cpe =>
          obtain ⟨CE, PE1⟩ := cpe
          rfl

theorem updateFold_preserves_isSome (l : Updaters) :
    ∀ (acc : Partition) (k : String),
      (alookup acc.cache k).isSome = true →
      (alookup (l.foldl updateStep acc).cache k).isSome = true := by
  induction l with
  | nil => intro acc k h; exact h
  | cons hd tl ih =>
      intro acc k h
      simp only [List.foldl_cons]
      apply ih
      unfold updateStep
      by_cases hc : (alookup acc.cache hd.1).isSome
      · rw [if_pos hc]; exact h
      · rw [if_neg hc]
        exact alookup_isSome_ainsert _ _ _ _ h

theorem updateFold_registered (l : Updaters) :
    ∀ (acc : Partition) (k : String) (f : Partition → PyVal),
      alookup l k = some f →
      (alookup (l.foldl updateStep acc).cache k).isSome = true := by
  induction l with
  | nil => intro acc k f h; exact absurd h (by simp [alookup])
  | cons hd tl ih =>
      intro acc k f h
      obtain ⟨k0, f0⟩ := hd
      simp only [List.foldl_cons]
      by_cases hk : k0 = k
      · subst hk
        apply updateFold_preserves_isSome
        unfold updateStep
        by_cases hc : (alookup acc.cache k0).isSome
        · rw [if_pos hc]; exact hc
        · rw [if_neg hc]
          dsimp only
          rw [alookup_ainsert_self]
          rfl
      · simp only [alookup, hk, if_false] at h
        exact ih _ k f h

/-- **C3** (amended).  The child's Cache is rebuilt from scratch at every
transition — the parent's cached values play no role in the child
(merging from a parent with any cache contents yields the same child) —
but it is filled *eagerly*: every key registered in the Updater Registry
is already cached in the child at construction, before any get. -/
theorem c3_child_cache_rebuilt_eagerly :
    (∀ (upd : Updaters) (p : Partition) (c0 : List (String × PyVal))
        (F : List (Int × PyVal)),
        (Partition.merge upd { p with cache := c0 } F).toOption.map Prod.fst
          = (Partition.merge upd p F).toOption.map Prod.fst)
    ∧ (∀ (upd : Updaters) (p : Partition) (F : List (Int × PyVal))
        (c p1 : Partition) (k : String) (f : Partition → PyVal),
        Partition.merge upd p F = .ok (c, p1) → alookup upd k = some f →
        (alookup c.cache k).isSome = true) := by
  constructor
  · intro upd p c0 F
    unfold Partition.merge
    dsimp only
    by_cases hlen : p.partsEntries.length = 0
    · rw [if_pos hlen, if_pos hlen]
    · rw [if_neg hlen, if_neg hlen, from_parent_cache_irrelevant]
      cases hfp : Partition.from_parent p F with
      | error e => rfl
      | ok cp => rfl
  · intro upd p F c p1 k f hmerge hk
    unfold Partition.merge at hmerge
    by_cases hlen : p.partsEntries.length = 0
    · rw [if_pos hlen] at hmerge
      exact absurd hmerge (by simp)
    · rw [if_neg hlen] at hmerge
      cases hfp : Partition.from_parent p F with
      | error e =>
          rw [hfp] at hmerge
          exact absurd hmerge (by simp)
      | ok cp =>
          rw [hfp] at hmerge
          dsimp only at hmerge
          simp only [Except.ok.injEq, Prod.mk.injEq] at hmerge
          have hc : c.cache = (Partition.update upd cp.1).cache := by
            rw [← hmerge.1]
          rw [hc]
          unfold Partition.update
          exact updateFold_registered upd _ k f hk

/-- Witness for `c3_child_cache_rebuilt_eagerly`: concrete instance on the
two-node root with one registered updater and the empty flip set. -/
theorem c3_child_cache_rebuilt_eagerly_witness :
    ((Partition.merge c3upd { c3root with cache := [] } []).toOption.map Prod.fst
        = (Partition.merge c3upd c3root []).toOption.map Prod.fst)
    ∧ (alookup c3pair.1.cache "k").isSome = true :=
  ⟨c3_child_cache_rebuilt_eagerly.1 c3upd c3root [] [],
   c3_child_cache_rebuilt_eagerly.2 c3upd c3root [] c3pair.1 c3pair.2 "k"
     (fun _ => .vint 7) rfl rfl⟩

theorem getD_map_range {α : Type} (f : Nat → α) (n i : Nat) (d : α)
    (h : i < n) : ((List.range n).map f).getD i d = f i := by
  rw [List.getD_eq_getElem?_getD, List.getElem?_map, List.getElem?_range h]
  rfl

/-- **C5** (amended).  Root construction with a provided (truthy)
assignment attribute never fails; each node's label is the attribute value
looked up on the relabelled graph, and a node without an entry silently
receives the `None` label. -/
theorem c5_root_assignment_uses_attr_or_none (g : RawGraph) (attrName : String)
    (upd : Updaters) (hne : attrName ≠ "") (i : Nat)
    (hi : i < g.nodes.length) :
    (Partition.first_time g (some attrName) upd).assignment.getD i .vnone
      = (alookup ((convertGraph g).attrs.getD i []) attrName).getD .vnone := by
  unfold Partition.first_time
  dsimp only
  rw [update_assignment]
  unfold Partition.first_time_raw
  dsimp only
  rw [if_neg hne]
  exact getD_map_range _ _ _ _ hi

/-- Witness for `c5_root_assignment_uses_attr_or_none`: on the one-node
graph with no attributes, node `0`'s label is the (absent) attribute
lookup, i.e. `None`. -/
theorem c5_root_assignment_uses_attr_or_none_witness :
    (Partition.first_time gSingle (some "district") []).assignment.getD 0 .vnone
      = (alookup ((convertGraph gSingle).attrs.getD 0 []) "district").getD .vnone :=
  c5_root_assignment_uses_attr_or_none gSingle "district" [] (by decide) 0
    (by decide)

/-- Witness for `from_parent_parts_eq_naive_regroup`: the scenario root
with the single flip `{2: "B"}`; the incremental child assignment is the
applied assignment and its index entry for the new part `"B"` equals the
naive regrouping's. -/
theorem from_parent_parts_eq_naive_regroup_witness :
    ((Partition.from_parent c9root c1flips).toOption.map
          (fun cp => cp.1.assignment)
        = (applyFlips c9root.assignment c1flips).toOption)
    ∧ ((Partition.from_parent c9root c1flips).toOption.map
          (fun cp => alookup cp.1.partsEntries (.vstr "B"))
        = (applyFlips c9root.assignment c1flips).toOption.map
            (fun A2 => alookup (groupParts A2) (.vstr "B"))) :=
  have h := from_parent_parts_eq_naive_regroup c9root c1flips
    (fun _ => rfl) (by decide) (by unfold validFlips; decide) (by decide) rfl
  ⟨h.1, h.2 (.vstr "B")⟩
